import Mathlib

/-!
Verification of the inventory-manager core of `app.py`.

The Python `InventoryManager` keeps three pieces of in-memory state:
`self.items` (an insertion-ordered dict from item name to
`{'quantity': ..., 'price': ...}`), `self.low_stock_heap` (a `heapq`
min-heap of `(quantity, name)` pairs) and `self.threshold` (an int).
Every mutating operation also writes through to a SQLite store.

Shallow embedding choices:
* the dict is an insertion-ordered association list `List (String × Item)`;
* the heap is represented by its pop-order: a list kept sorted in the
  lexicographic `(quantity, name)` order that `heapq` uses on tuples
  (`heappush` is ordered insertion, `heapify` is sorting);
* quantities, prices and the threshold are `Int` (Python ints; the price
  is only ever stored and copied, never computed with, so an exact type
  is faithful);
* the SQLite store is abstracted by a `StoreOutcome` parameter on every
  mutating operation saying how its write-through behaves: `ok` (all
  store calls succeed), `integrityError` (the store raises
  `sqlite3.IntegrityError` at the write), `err` (the store raises some
  other exception at the commit of the write).  An operation that lets a
  store exception propagate is modelled as `raised s`, where `s` is the
  in-memory state at the moment the exception escapes.
-/

/-- The value of one entry of `self.items`: the `{'quantity','price'}` dict. -/
structure Item where
  quantity : Int
  price : Int
deriving DecidableEq, Repr

/-- One record returned by `get_low_stock_items`:
the `{'name','quantity','price'}` dict built at line 151 of `app.py`. -/
structure LowRec where
  name : String
  quantity : Int
  price : Int
deriving DecidableEq, Repr

/-- The in-memory state of an `InventoryManager` instance. -/
structure InventoryManager where
  items : List (String × Item)
  low_stock_heap : List (Int × String)
  threshold : Int
deriving DecidableEq, Repr

/-- How the persistent store behaves during one mutating operation. -/
inductive StoreOutcome where
  | ok
  | integrityError
  | err
deriving DecidableEq, Repr

/-- Result of a mutating operation: either a normal return carrying the
new state and Python's `(success, message)` pair, or a propagated store
exception carrying the in-memory state at the moment it escapes. -/
inductive OpResult where
  | ok (state : InventoryManager) (success : Bool) (msg : String)
  | raised (state : InventoryManager)
deriving DecidableEq, Repr

/-- Result of `set_threshold` (which returns `None` in Python). -/
inductive ThrResult where
  | done (state : InventoryManager)
  | raised (state : InventoryManager)
deriving DecidableEq, Repr

/-- Python dict lookup `self.items[name]` / `name in self.items`. -/
def lookupItem : List (String × Item) → String → Option Item
  | [], _ => none
  | (k, v) :: rest, n => if k = n then some v else lookupItem rest n

/-- `name in self.items`. -/
def containsName (items : List (String × Item)) (n : String) : Bool :=
  (lookupItem items n).isSome

/-- `self.items[name]['quantity'] = q` (in-place, keeps dict order). -/
def setQuantity (items : List (String × Item)) (n : String) (q : Int) :
    List (String × Item) :=
  items.map fun p => if p.1 = n then (p.1, { p.2 with quantity := q }) else p

/-- `self.items[name]['price'] = p` (in-place, keeps dict order). -/
def setPrice (items : List (String × Item)) (n : String) (pr : Int) :
    List (String × Item) :=
  items.map fun p => if p.1 = n then (p.1, { p.2 with price := pr }) else p

/-- `del self.items[name]` (keeps the order of the other keys). -/
def removeItem (items : List (String × Item)) (n : String) :
    List (String × Item) :=
  items.filter fun p => p.1 ≠ n

/-- The order `heapq` uses on `(quantity, name)` tuples: Python tuple
comparison, i.e. lexicographic on the quantity then the name (the name
part is phrased as `¬ b.2 < a.2`, which in the linear order on strings
is `a.2 ≤ b.2`, so that the relation evaluates by computation). -/
def entryLe (a b : Int × String) : Prop :=
  a.1 < b.1 ∨ (a.1 = b.1 ∧ ¬ b.2 < a.2)

theorem entryLe_iff (a b : Int × String) :
    entryLe a b ↔ a.1 < b.1 ∨ (a.1 = b.1 ∧ a.2 ≤ b.2) := by
  unfold entryLe
  rw [not_lt]

/-- A kernel-computable decision procedure for the string order, routed
through the code-point list comparison (the iterator-based instance in
the library does not reduce). -/
instance (priority := 2000) decStrLt : (s t : String) → Decidable (s < t) :=
  fun s t => decidable_of_iff (s.data < t.data) String.lt_iff_toList_lt.symm

instance : DecidableRel entryLe := fun a b =>
  inferInstanceAs (Decidable (a.1 < b.1 ∨ (a.1 = b.1 ∧ ¬ b.2 < a.2)))

instance : IsTrans (Int × String) entryLe where
  trans a b c hab hbc := by
    rw [entryLe_iff] at hab hbc ⊢
    rcases hab with h1 | ⟨h1, h1'⟩ <;> rcases hbc with h2 | ⟨h2, h2'⟩
    · exact Or.inl (h1.trans h2)
    · exact Or.inl (h2 ▸ h1)
    · exact Or.inl (h1 ▸ h2)
    · exact Or.inr ⟨h1.trans h2, h1'.trans h2'⟩

instance : IsTotal (Int × String) entryLe where
  total a b := by
    rw [entryLe_iff, entryLe_iff]
    rcases lt_trichotomy a.1 b.1 with h | h | h
    · exact Or.inl (Or.inl h)
    · rcases le_total a.2 b.2 with h' | h'
      · exact Or.inl (Or.inr ⟨h, h'⟩)
      · exact Or.inr (Or.inr ⟨h.symm, h'⟩)
    · exact Or.inr (Or.inl h)

instance : IsAntisymm (Int × String) entryLe where
  antisymm a b hab hba := by
    rw [entryLe_iff] at hab hba
    rcases hab with h1 | ⟨h1, h1'⟩ <;> rcases hba with h2 | ⟨h2, h2'⟩
    · exact absurd (h1.trans h2) (lt_irrefl _)
    · exact absurd h1 (h2 ▸ lt_irrefl _)
    · exact absurd h2 (h1 ▸ lt_irrefl _)
    · exact Prod.ext h1 (le_antisymm h1' h2')

/-- `heapq.heappush(heap, e)`: on the pop-order representation, ordered
insertion. -/
def heappush (h : List (Int × String)) (e : Int × String) :
    List (Int × String) :=
  h.orderedInsert entryLe e

/-- `self._rebuild_heap()` (lines 185-189): start from an empty heap and
push `(quantity, name)` for every item strictly below the threshold, in
dict iteration order. -/
def rebuild_heap (items : List (String × Item)) (thr : Int) :
    List (Int × String) :=
  items.foldl
    (fun h p => if p.2.quantity < thr then heappush h (p.2.quantity, p.1) else h)
    []

/-- The multiset (in dict iteration order) of `(quantity, name)` pairs of
the items strictly below the threshold: what `_rebuild_heap` pushes. -/
def lowEntries (items : List (String × Item)) (thr : Int) :
    List (Int × String) :=
  items.filterMap fun p =>
    if p.2.quantity < thr then some (p.2.quantity, p.1) else none

/-- The drain loop of `get_low_stock_items` (lines 148-156), processing
popped entries in pop order.  For each popped `(quantity, name)` the
guard at line 150 is `name in self.items and
self.items[name]['quantity'] < self.threshold`; a passing entry
contributes a `{'name','quantity','price'}` record (live values) to the
result and `(live quantity, name)` to `temp_heap`; a failing entry is
dropped.  Returns `(low_stock, temp_heap)`. -/
def drainAux (items : List (String × Item)) (thr : Int) :
    List (Int × String) → List LowRec × List (Int × String)
  | [] => ([], [])
  | (_, n) :: rest =>
    match lookupItem items n with
    | some it =>
      if it.quantity < thr then
        let r := drainAux items thr rest
        (⟨n, it.quantity, it.price⟩ :: r.1, (it.quantity, n) :: r.2)
      else drainAux items thr rest
    | none => drainAux items thr rest

/-- `get_low_stock_items` (lines 144-161): drain the heap, keep the valid
entries, replace the heap by the heapified `temp_heap`, return the list
of valid records. -/
def get_low_stock_items (m : InventoryManager) :
    List LowRec × InventoryManager :=
  let r := drainAux m.items m.threshold m.low_stock_heap
  (r.1, { m with low_stock_heap := List.insertionSort entryLe r.2 })

/-- `add_item` (lines 70-93).  An `IntegrityError` raised by the insert is
caught and reported as `(False, "Item already exists")`; any other store
exception propagates before the in-memory structures are touched. -/
def add_item (m : InventoryManager) (name : String) (quantity price : Int)
    (st : StoreOutcome) : OpResult :=
  if containsName m.items name then .ok m false "Item already exists"
  else
    match st with
    | .ok =>
      .ok
        { items := m.items ++ [(name, ⟨quantity, price⟩)]
          low_stock_heap :=
            if quantity < m.threshold then
              heappush m.low_stock_heap (quantity, name)
            else m.low_stock_heap
          threshold := m.threshold }
        true "Item added successfully"
    | .integrityError => .ok m false "Item already exists"
    | .err => .raised m

/-- The in-memory field updates `update_item` performs at lines 102-110:
each provided field is written into `self.items[name]` before the
corresponding SQL `UPDATE` is issued. -/
def applyUpdates (items : List (String × Item)) (name : String)
    (quantity price : Option Int) : List (String × Item) :=
  let items1 :=
    match quantity with
    | some q => setQuantity items name q
    | none => items
  match price with
  | some p => setPrice items1 name p
  | none => items1

/-- `update_item` (lines 95-117).  There is no `try` around the store
calls, so a store exception propagates; it is modelled at the
`conn.commit()` (line 112), by which point every provided field has
already been written into `self.items` but the heap has not been
rebuilt. -/
def update_item (m : InventoryManager) (name : String)
    (quantity price : Option Int) (st : StoreOutcome) : OpResult :=
  if containsName m.items name then
    let items2 := applyUpdates m.items name quantity price
    match st with
    | .ok =>
      .ok
        { items := items2
          low_stock_heap := rebuild_heap items2 m.threshold
          threshold := m.threshold }
        true "Item updated successfully"
    | _ => .raised { m with items := items2 }
  else .ok m false "Item not found"

/-- `delete_item` (lines 119-132).  The store delete and commit happen
before `del self.items[name]`, so a propagated store exception leaves the
in-memory state untouched. -/
def delete_item (m : InventoryManager) (name : String) (st : StoreOutcome) :
    OpResult :=
  if containsName m.items name then
    match st with
    | .ok =>
      let items1 := removeItem m.items name
      .ok
        { items := items1
          low_stock_heap := rebuild_heap items1 m.threshold
          threshold := m.threshold }
        true "Item deleted successfully"
    | _ => .raised m
  else .ok m false "Item not found"

/-- `set_threshold` (lines 175-183).  `self.threshold = threshold` is
executed first (line 176), then the store write; a store exception
(modelled at `conn.commit()`, line 181) therefore escapes with the
threshold already changed and the heap not yet rebuilt.  Returns `None`
in Python. -/
def set_threshold (m : InventoryManager) (t : Int) (st : StoreOutcome) :
    ThrResult :=
  let m1 := { m with threshold := t }
  match st with
  | .ok =>
    .done { m1 with low_stock_heap := rebuild_heap m1.items t }
  | _ => .raised m1

/-- The state a mutating operation leaves behind when it raises
(`none` when it returns normally). -/
def raisedState : OpResult → Option InventoryManager
  | .raised m => some m
  | .ok _ _ _ => none

/-- The state `set_threshold` leaves behind when it raises. -/
def thrRaisedState : ThrResult → Option InventoryManager
  | .raised m => some m
  | .done _ => none

/-- The state of a freshly constructed manager over an empty database:
`__init__` sets `items = {}`, `low_stock_heap = []`, `threshold = 10`,
and `load_items` on an empty store leaves them so. -/
def initManager : InventoryManager :=
  { items := [], low_stock_heap := [], threshold := 10 }

/-- States reachable from a fresh manager by completed public operations
(store writes succeeding). -/
inductive Reachable : InventoryManager → Prop where
  | init : Reachable initManager
  | add {m m' : InventoryManager} {n : String} {q p : Int} {s : Bool}
      {msg : String} : Reachable m →
      add_item m n q p .ok = .ok m' s msg → Reachable m'
  | update {m m' : InventoryManager} {n : String} {q p : Option Int}
      {s : Bool} {msg : String} : Reachable m →
      update_item m n q p .ok = .ok m' s msg → Reachable m'
  | delete {m m' : InventoryManager} {n : String} {s : Bool} {msg : String} :
      Reachable m → delete_item m n .ok = .ok m' s msg → Reachable m'
  | setThr {m m' : InventoryManager} {t : Int} : Reachable m →
      set_threshold m t .ok = .done m' → Reachable m'
  | listLow {m : InventoryManager} : Reachable m →
      Reachable (get_low_stock_items m).2

/-- The structural invariant of reachable states: the dict keys are
distinct, and the heap is exactly the sorted list of `(quantity, name)`
pairs of the items strictly below the threshold. -/
def goodState (m : InventoryManager) : Prop :=
  (m.items.map Prod.fst).Nodup ∧
  m.low_stock_heap.Perm (lowEntries m.items m.threshold) ∧
  m.low_stock_heap.Sorted entryLe

/-- What the guard at line 150 keeps for the result list, per popped
entry: the live record if the name is present and its live quantity is
below the threshold, nothing otherwise. -/
def keepRec (items : List (String × Item)) (thr : Int) (e : Int × String) :
    Option LowRec :=
  match lookupItem items e.2 with
  | some it =>
    if it.quantity < thr then some ⟨e.2, it.quantity, it.price⟩ else none
  | none => none

/-- What the guard at line 150 keeps for `temp_heap`, per popped entry:
`(live quantity, name)` if valid, nothing otherwise. -/
def keepEntry (items : List (String × Item)) (thr : Int) (e : Int × String) :
    Option (Int × String) :=
  match lookupItem items e.2 with
  | some it => if it.quantity < thr then some (it.quantity, e.2) else none
  | none => none

/-- A heap entry whose stored quantity matches the live quantity of an
existing item that is strictly below the threshold. -/
def validEntry (items : List (String × Item)) (thr : Int)
    (e : Int × String) : Prop :=
  ∃ it, lookupItem items e.2 = some it ∧ it.quantity = e.1 ∧ e.1 < thr

/-- The record the drain loop builds for a popped entry, from the live
item state. -/
def liveRec (items : List (String × Item)) (e : Int × String) : LowRec :=
  match lookupItem items e.2 with
  | some it => ⟨e.2, it.quantity, it.price⟩
  | none => ⟨e.2, e.1, 0⟩

/-- The order of the records `get_low_stock_items` returns: quantity
ascending, names lexicographic on ties. -/
def recLe (r1 r2 : LowRec) : Prop :=
  r1.quantity < r2.quantity ∨ (r1.quantity = r2.quantity ∧ r1.name ≤ r2.name)

/-- Concrete state: one item `bolt` (quantity 5, price 1), threshold 10;
the state reached from a fresh manager by one successful `add_item`. -/
def mBolt : InventoryManager :=
  { items := [("bolt", ⟨5, 1⟩)], low_stock_heap := [(5, "bolt")],
    threshold := 10 }

/-- Concrete state: `bolt` and `nut`, both at quantity 5, threshold 10;
reached from `mBolt` by one successful `add_item`. -/
def mTwo : InventoryManager :=
  { items := [("bolt", ⟨5, 1⟩), ("nut", ⟨5, 2⟩)],
    low_stock_heap := [(5, "bolt"), (5, "nut")], threshold := 10 }

/-- Concrete state exercising a stale heap entry: the heap holds
`(5, "a")` while the live quantity of `"a"` is 3. -/
def mStale : InventoryManager :=
  { items := [("a", ⟨3, 7⟩)], low_stock_heap := [(5, "a")], threshold := 10 }

/-- Concrete state for the store-failure counterexample: one item `a`
with quantity 15, empty heap, threshold 10. -/
def mC1 : InventoryManager :=
  { items := [("a", ⟨15, 2⟩)], low_stock_heap := [], threshold := 10 }

/-! ### Association-list lemmas -/

theorem lookupItem_eq_none {l : List (String × Item)} {n : String} :
    lookupItem l n = none ↔ n ∉ l.map Prod.fst := by
  induction l with
  | nil => simp [lookupItem]
  | cons p rest ih =>
    by_cases h : p.1 = n <;> simp [lookupItem, h, ih, Ne.symm]

theorem lookupItem_mem {l : List (String × Item)} {n : String} {it : Item}
    (h : lookupItem l n = some it) : (n, it) ∈ l := by
  induction l with
  | nil => simp [lookupItem] at h
  | cons p rest ih =>
    by_cases hp : p.1 = n
    · simp [lookupItem, hp] at h
      subst hp; subst h
      exact List.mem_cons_self _ _
    · simp [lookupItem, hp] at h
      exact List.mem_cons_of_mem _ (ih h)

theorem mem_lookupItem {l : List (String × Item)} {n : String} {it : Item}
    (hmem : (n, it) ∈ l) (hnd : (l.map Prod.fst).Nodup) :
    lookupItem l n = some it := by
  induction l with
  | nil => simp at hmem
  | cons p rest ih =>
    simp only [List.map_cons, List.nodup_cons] at hnd
    rcases List.mem_cons.mp hmem with h | h
    · subst h; simp [lookupItem]
    · have hne : p.1 ≠ n := by
        intro he
        exact hnd.1 (he ▸ (List.mem_map_of_mem Prod.fst h))
      simp [lookupItem, hne, ih h hnd.2]

theorem map_fst_setQuantity (l : List (String × Item)) (n : String) (q : Int) :
    (setQuantity l n q).map Prod.fst = l.map Prod.fst := by
  induction l with
  | nil => rfl
  | cons p rest ih =>
    by_cases h : p.1 = n <;> simp [setQuantity, h] at ih ⊢ <;> exact ih

theorem map_fst_setPrice (l : List (String × Item)) (n : String) (pr : Int) :
    (setPrice l n pr).map Prod.fst = l.map Prod.fst := by
  induction l with
  | nil => rfl
  | cons p rest ih =>
    by_cases h : p.1 = n <;> simp [setPrice, h] at ih ⊢ <;> exact ih

theorem lookupItem_setQuantity (l : List (String × Item)) (n n2 : String)
    (q : Int) :
    lookupItem (setQuantity l n q) n2 =
      (lookupItem l n2).map
        fun it => if n2 = n then { it with quantity := q } else it := by
  induction l with
  | nil => rfl
  | cons p rest ih =>
    obtain ⟨k, v⟩ := p
    simp only [setQuantity, List.map_cons] at ih ⊢
    by_cases hp : (k, v).1 = n
    · rw [if_pos hp]
      simp only [lookupItem]
      by_cases hp2 : k = n2
      · rw [if_pos hp2, if_pos hp2]
        have hn : n2 = n := hp2 ▸ hp
        simp [hn]
      · rw [if_neg hp2, if_neg hp2]
        exact ih
    · rw [if_neg hp]
      simp only [lookupItem]
      by_cases hp2 : k = n2
      · rw [if_pos hp2, if_pos hp2]
        have hn : ¬ n2 = n := fun he => hp (hp2 ▸ he ▸ rfl)
        simp [hn]
      · rw [if_neg hp2, if_neg hp2]
        exact ih

theorem lookupItem_setPrice (l : List (String × Item)) (n n2 : String)
    (pr : Int) :
    lookupItem (setPrice l n pr) n2 =
      (lookupItem l n2).map
        fun it => if n2 = n then { it with price := pr } else it := by
  induction l with
  | nil => rfl
  | cons p rest ih =>
    obtain ⟨k, v⟩ := p
    simp only [setPrice, List.map_cons] at ih ⊢
    by_cases hp : (k, v).1 = n
    · rw [if_pos hp]
      simp only [lookupItem]
      by_cases hp2 : k = n2
      · rw [if_pos hp2, if_pos hp2]
        have hn : n2 = n := hp2 ▸ hp
        simp [hn]
      · rw [if_neg hp2, if_neg hp2]
        exact ih
    · rw [if_neg hp]
      simp only [lookupItem]
      by_cases hp2 : k = n2
      · rw [if_pos hp2, if_pos hp2]
        have hn : ¬ n2 = n := fun he => hp (hp2 ▸ he ▸ rfl)
        simp [hn]
      · rw [if_neg hp2, if_neg hp2]
        exact ih

theorem lookupItem_setQuantity_ne {l : List (String × Item)} {n n2 : String}
    (q : Int) (h : n2 ≠ n) :
    lookupItem (setQuantity l n q) n2 = lookupItem l n2 := by
  rw [lookupItem_setQuantity]
  cases lookupItem l n2 <;> simp [h]

theorem lookupItem_setPrice_ne {l : List (String × Item)} {n n2 : String}
    (pr : Int) (h : n2 ≠ n) :
    lookupItem (setPrice l n pr) n2 = lookupItem l n2 := by
  rw [lookupItem_setPrice]
  cases lookupItem l n2 <;> simp [h]

theorem lookupItem_setQuantity_self (l : List (String × Item)) (n : String)
    (q : Int) :
    lookupItem (setQuantity l n q) n =
      (lookupItem l n).map fun it => { it with quantity := q } := by
  rw [lookupItem_setQuantity]
  cases lookupItem l n <;> simp

theorem lookupItem_setPrice_self (l : List (String × Item)) (n : String)
    (pr : Int) :
    lookupItem (setPrice l n pr) n =
      (lookupItem l n).map fun it => { it with price := pr } := by
  rw [lookupItem_setPrice]
  cases lookupItem l n <;> simp

theorem removeItem_sublist (l : List (String × Item)) (n : String) :
    (removeItem l n).Sublist l :=
  List.filter_sublist l

theorem lowEntries_append (l l2 : List (String × Item)) (thr : Int) :
    lowEntries (l ++ l2) thr = lowEntries l thr ++ lowEntries l2 thr := by
  simp [lowEntries, List.filterMap_append]

theorem mem_lowEntries {l : List (String × Item)} {thr q : Int} {n : String} :
    (q, n) ∈ lowEntries l thr ↔
      ∃ it, (n, it) ∈ l ∧ it.quantity = q ∧ q < thr := by
  simp only [lowEntries, List.mem_filterMap]
  constructor
  · rintro ⟨⟨n', it⟩, hmem, hcond⟩
    by_cases h : it.quantity < thr
    · rw [if_pos h] at hcond
      have hpair := Option.some.inj hcond
      have hq : it.quantity = q := congrArg Prod.fst hpair
      have hn : n' = n := congrArg Prod.snd hpair
      exact ⟨it, hn ▸ hmem, hq, hq ▸ h⟩
    · rw [if_neg h] at hcond
      exact absurd hcond (by simp)
  · rintro ⟨it, hmem, hq, hlt⟩
    refine ⟨(n, it), hmem, ?_⟩
    have hq' : it.quantity < thr := by rw [hq]; exact hlt
    rw [if_pos hq', hq]

theorem map_snd_lowEntries_sublist (l : List (String × Item)) (thr : Int) :
    ((lowEntries l thr).map Prod.snd).Sublist (l.map Prod.fst) := by
  induction l with
  | nil => simp [lowEntries]
  | cons p rest ih =>
    obtain ⟨k, v⟩ := p
    by_cases h : v.quantity < thr
    · simp only [lowEntries, List.filterMap_cons] at ih ⊢
      rw [if_pos h]
      simpa using List.Sublist.cons₂ k ih
    · simp only [lowEntries, List.filterMap_cons] at ih ⊢
      rw [if_neg h]
      simpa using List.Sublist.cons k ih

/-! ### Heap lemmas -/

theorem rebuild_heap_aux (thr : Int) (l : List (String × Item)) :
    ∀ acc : List (Int × String), acc.Sorted entryLe →
      (l.foldl
          (fun h p =>
            if p.2.quantity < thr then heappush h (p.2.quantity, p.1) else h)
          acc).Sorted entryLe ∧
      (l.foldl
          (fun h p =>
            if p.2.quantity < thr then heappush h (p.2.quantity, p.1) else h)
          acc).Perm (acc ++ lowEntries l thr) := by
  induction l with
  | nil =>
    intro acc hs
    exact ⟨hs, by simp [lowEntries]⟩
  | cons p rest ih =>
    intro acc hs
    obtain ⟨k, v⟩ := p
    by_cases h : v.quantity < thr
    · have hs' : (heappush acc (v.quantity, k)).Sorted entryLe :=
        hs.orderedInsert (v.quantity, k) acc
      obtain ⟨s1, p1⟩ := ih (heappush acc (v.quantity, k)) hs'
      constructor
      · simpa [h] using s1
      · have hp2 : (heappush acc (v.quantity, k)).Perm ((v.quantity, k) :: acc) :=
          List.perm_orderedInsert entryLe _ _
        have e1 : (heappush acc (v.quantity, k) ++ lowEntries rest thr).Perm
            (((v.quantity, k) :: acc) ++ lowEntries rest thr) :=
          hp2.append_right _
        have e2 : (((v.quantity, k) :: acc) ++ lowEntries rest thr).Perm
            (acc ++ ((v.quantity, k) :: lowEntries rest thr)) :=
          List.perm_middle.symm
        have e3 : acc ++ ((v.quantity, k) :: lowEntries rest thr) =
            acc ++ lowEntries ((k, v) :: rest) thr := by
          simp [lowEntries, List.filterMap_cons, h]
        have step := e3 ▸ (e1.trans e2)
        refine List.Perm.trans ?_ step
        simpa [h] using p1
    · obtain ⟨s1, p1⟩ := ih acc hs
      constructor
      · simpa [h] using s1
      · have : lowEntries ((k, v) :: rest) thr = lowEntries rest thr := by
          simp [lowEntries, List.filterMap_cons, h]
        rw [this]
        simpa [h] using p1

theorem sorted_rebuild_heap (l : List (String × Item)) (thr : Int) :
    (rebuild_heap l thr).Sorted entryLe :=
  (rebuild_heap_aux thr l [] List.sorted_nil).1

theorem perm_rebuild_heap (l : List (String × Item)) (thr : Int) :
    (rebuild_heap l thr).Perm (lowEntries l thr) := by
  have := (rebuild_heap_aux thr l [] List.sorted_nil).2
  simpa using this

/-! ### Drain lemmas -/

theorem drainAux_eq (items : List (String × Item)) (thr : Int) :
    ∀ h : List (Int × String),
      drainAux items thr h =
        (h.filterMap (keepRec items thr), h.filterMap (keepEntry items thr)) := by
  intro h
  induction h with
  | nil => rfl
  | cons e rest ih =>
    obtain ⟨q, n⟩ := e
    cases hl : lookupItem items n with
    | none =>
      simp [drainAux, List.filterMap_cons, keepRec, keepEntry, hl, ih]
    | some it =>
      by_cases hq : it.quantity < thr <;>
        simp [drainAux, List.filterMap_cons, keepRec, keepEntry, hl, hq, ih]

theorem drainAux_of_valid (items : List (String × Item)) (thr : Int) :
    ∀ h : List (Int × String), (∀ e ∈ h, validEntry items thr e) →
      drainAux items thr h = (h.map (liveRec items), h) := by
  intro h
  induction h with
  | nil => intro _; rfl
  | cons e rest ih =>
    intro hv
    obtain ⟨q, n⟩ := e
    obtain ⟨it, hl, hq, hlt⟩ := hv (q, n) (List.mem_cons_self _ _)
    have hrest := ih fun e he => hv e (List.mem_cons_of_mem _ he)
    have hql : it.quantity < thr := by rw [hq]; exact hlt
    simp only [drainAux, hl, if_pos hql, hrest, liveRec, List.map_cons]
    exact Prod.ext rfl (by simp [hq])

/-! ### The reachable-state invariant -/

theorem containsName_false_iff {l : List (String × Item)} {n : String} :
    containsName l n = false ↔ lookupItem l n = none := by
  unfold containsName
  cases lookupItem l n <;> simp

theorem goodState_init : goodState initManager := by
  refine ⟨List.nodup_nil, ?_, List.sorted_nil⟩
  simp [initManager, lowEntries]

theorem map_fst_applyUpdates (l : List (String × Item)) (n : String)
    (q p : Option Int) :
    (applyUpdates l n q p).map Prod.fst = l.map Prod.fst := by
  unfold applyUpdates
  cases q <;> cases p <;>
    simp [map_fst_setQuantity, map_fst_setPrice]

theorem goodState_add {m m' : InventoryManager} {n : String} {q p : Int}
    {s : Bool} {msg : String} (hg : goodState m)
    (h : add_item m n q p .ok = .ok m' s msg) : goodState m' := by
  unfold add_item at h
  by_cases hc : containsName m.items n = true
  · rw [if_pos hc] at h
    injection h with h1 _ _
    exact h1 ▸ hg
  · rw [if_neg hc] at h
    injection h with h1 _ _
    subst h1
    have hnone : lookupItem m.items n = none :=
      containsName_false_iff.mp (Bool.not_eq_true _ ▸ hc)
    have hnotin : n ∉ m.items.map Prod.fst := lookupItem_eq_none.mp hnone
    obtain ⟨hnd, hperm, hsort⟩ := hg
    refine ⟨?_, ?_, ?_⟩
    · dsimp only
      rw [List.map_append]
      simp [List.nodup_append, hnd, hnotin]
    · dsimp only
      rw [lowEntries_append]
      have hsingle : lowEntries [(n, ⟨q, p⟩)] m.threshold =
          if q < m.threshold then [(q, n)] else [] := by
        by_cases hq : q < m.threshold <;> simp [lowEntries, hq]
      rw [hsingle]
      by_cases hq : q < m.threshold
      · rw [if_pos hq, if_pos hq]
        refine (List.perm_orderedInsert entryLe _ _).trans ?_
        refine (hperm.cons _).trans ?_
        exact (List.perm_append_singleton _ _).symm
      · rw [if_neg hq, if_neg hq]
        simpa using hperm
    · dsimp only
      by_cases hq : q < m.threshold
      · rw [if_pos hq]
        exact hsort.orderedInsert _ _
      · rw [if_neg hq]
        exact hsort

theorem goodState_update {m m' : InventoryManager} {n : String}
    {q p : Option Int} {s : Bool} {msg : String} (hg : goodState m)
    (h : update_item m n q p .ok = .ok m' s msg) : goodState m' := by
  unfold update_item at h
  by_cases hc : containsName m.items n = true
  · rw [if_pos hc] at h
    injection h with h1 _ _
    subst h1
    refine ⟨?_, perm_rebuild_heap _ _, sorted_rebuild_heap _ _⟩
    dsimp only
    rw [map_fst_applyUpdates]
    exact hg.1
  · rw [if_neg hc] at h
    injection h with h1 _ _
    exact h1 ▸ hg

theorem goodState_delete {m m' : InventoryManager} {n : String} {s : Bool}
    {msg : String} (hg : goodState m)
    (h : delete_item m n .ok = .ok m' s msg) : goodState m' := by
  unfold delete_item at h
  by_cases hc : containsName m.items n = true
  · rw [if_pos hc] at h
    injection h with h1 _ _
    subst h1
    refine ⟨?_, perm_rebuild_heap _ _, sorted_rebuild_heap _ _⟩
    dsimp only
    exact ((removeItem_sublist m.items n).map Prod.fst).nodup hg.1
  · rw [if_neg hc] at h
    injection h with h1 _ _
    exact h1 ▸ hg

theorem goodState_setThr {m m' : InventoryManager} {t : Int} (hg : goodState m)
    (h : set_threshold m t .ok = .done m') : goodState m' := by
  unfold set_threshold at h
  injection h with h1
  subst h1
  exact ⟨hg.1, perm_rebuild_heap _ _, sorted_rebuild_heap _ _⟩

theorem heap_valid_of_good {m : InventoryManager} (hg : goodState m) :
    ∀ e ∈ m.low_stock_heap, validEntry m.items m.threshold e := by
  obtain ⟨hnd, hperm, _⟩ := hg
  intro e he
  obtain ⟨q, n⟩ := e
  have hmem : (q, n) ∈ lowEntries m.items m.threshold := hperm.mem_iff.mp he
  obtain ⟨it, hmem', hq, hlt⟩ := mem_lowEntries.mp hmem
  exact ⟨it, mem_lookupItem hmem' hnd, hq, hlt⟩

theorem get_low_stock_items_state {m : InventoryManager} (hg : goodState m) :
    (get_low_stock_items m).2 = m := by
  unfold get_low_stock_items
  dsimp only
  rw [drainAux_of_valid _ _ _ (heap_valid_of_good hg)]
  dsimp only
  rw [List.Sorted.insertionSort_eq hg.2.2]

theorem get_low_stock_items_result {m : InventoryManager} (hg : goodState m) :
    (get_low_stock_items m).1 = m.low_stock_heap.map (liveRec m.items) := by
  unfold get_low_stock_items
  dsimp only
  rw [drainAux_of_valid _ _ _ (heap_valid_of_good hg)]

theorem goodState_listLow {m : InventoryManager} (hg : goodState m) :
    goodState (get_low_stock_items m).2 := by
  rw [get_low_stock_items_state hg]
  exact hg

theorem reachable_good {m : InventoryManager} (h : Reachable m) :
    goodState m := by
  induction h with
  | init => exact goodState_init
  | add hr hstep ih => exact goodState_add ih hstep
  | update hr hstep ih => exact goodState_update ih hstep
  | delete hr hstep ih => exact goodState_delete ih hstep
  | setThr hr hstep ih => exact goodState_setThr ih hstep
  | listLow hr ih => exact goodState_listLow ih

/-! ### Concrete reachable states -/

theorem reachBolt : Reachable mBolt :=
  Reachable.add Reachable.init
    (show add_item initManager "bolt" 5 1 .ok =
        .ok mBolt true "Item added successfully" by decide)

theorem reachTwo : Reachable mTwo :=
  Reachable.add reachBolt
    (show add_item mBolt "nut" 5 2 .ok =
        .ok mTwo true "Item added successfully" by decide)

/-! ### Claims -/

/-- C6: for every state in which `name` is already present in the
in-memory index, `add_item(name, quantity, price)` fails with the
"Item already exists" error and leaves the items mapping, the low-stock
heap, and the threshold exactly unchanged (whatever the store would have
done). -/
theorem c6_add_existing_unchanged (m : InventoryManager) (n : String)
    (q p : Int) (st : StoreOutcome) (h : containsName m.items n = true) :
    add_item m n q p st = .ok m false "Item already exists" := by
  unfold add_item
  rw [if_pos h]

/-- C6 witness: adding `bolt` again on the concrete state `mBolt`. -/
theorem c6_witness :
    containsName mBolt.items "bolt" = true ∧
    add_item mBolt "bolt" 3 4 .ok = .ok mBolt false "Item already exists" :=
  ⟨by decide, c6_add_existing_unchanged mBolt "bolt" 3 4 .ok (by decide)⟩

/-- C7: for every state in which `name` is absent from the in-memory
index, `update_item` and `delete_item` each fail with the
"Item not found" error and leave the items mapping, the low-stock heap,
and the threshold exactly unchanged. -/
theorem c7_missing_name_unchanged (m : InventoryManager) (n : String)
    (q p : Option Int) (st : StoreOutcome)
    (h : containsName m.items n = false) :
    update_item m n q p st = .ok m false "Item not found" ∧
    delete_item m n st = .ok m false "Item not found" := by
  have h' : ¬ containsName m.items n = true := by simp [h]
  constructor
  · unfold update_item
    rw [if_neg h']
  · unfold delete_item
    rw [if_neg h']

/-- C7 witness: updating and deleting the absent `nut` on `mBolt`. -/
theorem c7_witness :
    containsName mBolt.items "nut" = false ∧
    update_item mBolt "nut" (some 1) none .ok =
      .ok mBolt false "Item not found" ∧
    delete_item mBolt "nut" .ok = .ok mBolt false "Item not found" :=
  ⟨by decide,
    (c7_missing_name_unchanged mBolt "nut" (some 1) none .ok (by decide)).1,
    (c7_missing_name_unchanged mBolt "nut" (some 1) none .ok (by decide)).2⟩

/-- C10: for every existing item name, `update_item(name)` with neither
quantity nor price provided succeeds ("Item updated successfully") and
leaves the items mapping (hence every quantity and price) exactly as it
was; only the heap is re-derived from that unchanged mapping. -/
theorem c10_update_no_fields (m : InventoryManager) (n : String)
    (h : containsName m.items n = true) :
    update_item m n none none .ok =
      .ok { m with low_stock_heap := rebuild_heap m.items m.threshold }
        true "Item updated successfully" := by
  unfold update_item
  rw [if_pos h]
  rfl

/-- C10 witness: a no-field update of `bolt` on `mBolt`. -/
theorem c10_witness :
    containsName mBolt.items "bolt" = true ∧
    update_item mBolt "bolt" none none .ok =
      .ok { mBolt with low_stock_heap := rebuild_heap mBolt.items mBolt.threshold }
        true "Item updated successfully" :=
  ⟨by decide, c10_update_no_fields mBolt "bolt" (by decide)⟩

/-- C1 counterexample: on the state `mC1` (item `a` at quantity 15,
threshold 10), `update_item "a"` with a store write that fails at the
commit escapes with the in-memory items mapping already changed to
quantity 5 — the in-memory structures are NOT left exactly as they were,
refuting the claim that they are updated only after the store call
returns success. -/
theorem c1_counterexample :
    update_item mC1 "a" (some 5) none .err =
      .raised { items := [("a", ⟨5, 2⟩)], low_stock_heap := [],
                threshold := 10 } ∧
    ([(("a" : String), (⟨5, 2⟩ : Item))] : List (String × Item)) ≠ mC1.items := by
  constructor
  · decide
  · decide

/-- C1 (amended): on a store failure, `add_item` and `delete_item` do
leave all in-memory structures exactly unchanged, but `update_item`
escapes with every provided field already written into the items mapping
(heap and threshold untouched), and `set_threshold` escapes with the
in-memory threshold already changed (items and heap untouched). -/
theorem c1_store_failure_states (m : InventoryManager) (n : String)
    (q p t : Int) (oq op : Option Int) :
    raisedState (add_item m n q p .err) =
      (if containsName m.items n then none else some m) ∧
    raisedState (delete_item m n .err) =
      (if containsName m.items n then some m else none) ∧
    raisedState (update_item m n oq op .err) =
      (if containsName m.items n then
        some { m with items := applyUpdates m.items n oq op } else none) ∧
    thrRaisedState (set_threshold m t .err) =
      some { m with threshold := t } := by
  refine ⟨?_, ?_, ?_, ?_⟩ <;>
    by_cases hc : containsName m.items n = true <;>
      simp [add_item, delete_item, update_item, set_threshold, raisedState,
        thrRaisedState, hc]

/-- C3 counterexample: on the state `mStale` the heap entry `(5, "a")`
records quantity 5 while the live quantity of `a` is 3; the claim says
such an entry must be discarded (entry quantity differs from live
quantity), yet the code treats it as valid: it contributes `a` (with its
live values) to the result and is re-inserted into the heap. -/
theorem c3_counterexample :
    mStale.low_stock_heap = [(5, "a")] ∧
    lookupItem mStale.items "a" = some ⟨3, 7⟩ ∧
    (5 : Int) ≠ 3 ∧
    (get_low_stock_items mStale).1 = [⟨"a", 3, 7⟩] ∧
    (get_low_stock_items mStale).2.low_stock_heap = [(3, "a")] := by
  refine ⟨rfl, by decide, by decide, by decide, by decide⟩

/-- C3 (amended): in the drain loop, an extracted entry `(quantity,
name)` is treated as valid — contributing the live record to the result
and `(live quantity, name)` to the rebuilt heap — exactly when `name`
exists in the items mapping AND the item's current live quantity is
strictly below the threshold; the entry's own recorded quantity is never
compared against the live quantity. -/
theorem c3_drain_validity (items : List (String × Item)) (thr : Int)
    (hp : List (Int × String)) :
    drainAux items thr hp =
      (hp.filterMap fun e =>
          match lookupItem items e.2 with
          | some it =>
            if it.quantity < thr then some ⟨e.2, it.quantity, it.price⟩
            else none
          | none => none,
        hp.filterMap fun e =>
          match lookupItem items e.2 with
          | some it =>
            if it.quantity < thr then some (it.quantity, e.2) else none
          | none => none) :=
  drainAux_eq items thr hp

theorem liveRec_name (items : List (String × Item)) (e : Int × String) :
    (liveRec items e).name = e.2 := by
  unfold liveRec
  cases lookupItem items e.2 <;> rfl

/-- C2: in every reachable state, `get_low_stock_items` returns exactly
the items whose live quantity is strictly below the current threshold,
each reported once, with its current quantity and price. -/
theorem c2_low_stock_exact (m : InventoryManager) (hr : Reachable m) :
    (∀ (n : String) (q p : Int),
        (⟨n, q, p⟩ : LowRec) ∈ (get_low_stock_items m).1 ↔
          lookupItem m.items n = some ⟨q, p⟩ ∧ q < m.threshold) ∧
    ((get_low_stock_items m).1.map LowRec.name).Nodup := by
  have hg := reachable_good hr
  obtain ⟨hnd, hperm, hsort⟩ := hg
  rw [get_low_stock_items_result ⟨hnd, hperm, hsort⟩]
  constructor
  · intro n q p
    constructor
    · intro hmem
      obtain ⟨⟨q', n'⟩, hin, heq⟩ := List.mem_map.mp hmem
      obtain ⟨it, hl, hq', hlt⟩ :=
        heap_valid_of_good ⟨hnd, hperm, hsort⟩ _ hin
      simp only [liveRec, hl] at heq
      have h1 : n' = n := congrArg LowRec.name heq
      have h2 : it.quantity = q := congrArg LowRec.quantity heq
      have h3 : it.price = p := congrArg LowRec.price heq
      subst h1
      refine ⟨?_, ?_⟩
      · rw [hl]
        congr 1
        cases it
        simp at h2 h3
        simp [h2, h3]
      · dsimp only at hq'
        rw [← h2, hq']
        exact hlt
    · rintro ⟨hl, hlt⟩
      have hmem : (q, n) ∈ lowEntries m.items m.threshold :=
        mem_lowEntries.mpr ⟨⟨q, p⟩, lookupItem_mem hl, rfl, hlt⟩
      have hin : (q, n) ∈ m.low_stock_heap := hperm.mem_iff.mpr hmem
      refine List.mem_map.mpr ⟨(q, n), hin, ?_⟩
      simp [liveRec, hl]
  · have hmap : (m.low_stock_heap.map (liveRec m.items)).map LowRec.name =
        m.low_stock_heap.map Prod.snd := by
      rw [List.map_map]
      exact List.map_congr_left fun e _ => liveRec_name m.items e
    rw [hmap]
    have hp2 : (m.low_stock_heap.map Prod.snd).Perm
        ((lowEntries m.items m.threshold).map Prod.snd) := hperm.map _
    exact hp2.nodup_iff.mpr ((map_snd_lowEntries_sublist _ _).nodup hnd)

/-- C2 witness: on the reachable state `mBolt`, `bolt` (quantity 5 below
threshold 10) is reported, and the reported names are duplicate-free. -/
theorem c2_witness :
    ((⟨"bolt", 5, 1⟩ : LowRec) ∈ (get_low_stock_items mBolt).1 ↔
      lookupItem mBolt.items "bolt" = some ⟨5, 1⟩ ∧ 5 < mBolt.threshold) ∧
    ((get_low_stock_items mBolt).1.map LowRec.name).Nodup :=
  ⟨(c2_low_stock_exact mBolt reachBolt).1 "bolt" 5 1,
    (c2_low_stock_exact mBolt reachBolt).2⟩

/-- C4: in every reachable state, every item whose live quantity is
strictly below the current threshold has at least one entry for its name
in the low-stock heap (no false negatives). -/
theorem c4_no_false_negatives (m : InventoryManager) (hr : Reachable m)
    (n : String) (it : Item) (hl : lookupItem m.items n = some it)
    (hq : it.quantity < m.threshold) :
    ∃ q, (q, n) ∈ m.low_stock_heap := by
  obtain ⟨hnd, hperm, _⟩ := reachable_good hr
  exact ⟨it.quantity,
    hperm.mem_iff.mpr
      (mem_lowEntries.mpr ⟨it, lookupItem_mem hl, rfl, hq⟩)⟩

/-- C4 witness: on the reachable state `mBolt`, `bolt` is below threshold
and has a heap entry. -/
theorem c4_witness :
    lookupItem mBolt.items "bolt" = some ⟨5, 1⟩ ∧
    ((5 : Int) < mBolt.threshold) ∧
    ∃ q, (q, "bolt") ∈ mBolt.low_stock_heap :=
  ⟨by decide, by decide,
    c4_no_false_negatives mBolt reachBolt "bolt" ⟨5, 1⟩ (by decide) (by decide)⟩

/-- C5: in every reachable state, the sequence `get_low_stock_items`
returns is ordered by quantity ascending, with ties broken by
lexicographic name order. -/
theorem c5_low_stock_sorted (m : InventoryManager) (hr : Reachable m) :
    (get_low_stock_items m).1.Sorted recLe := by
  have hg := reachable_good hr
  rw [get_low_stock_items_result hg]
  have hpair : List.Pairwise
      (fun a b => recLe (liveRec m.items a) (liveRec m.items b))
      m.low_stock_heap := by
    refine List.Pairwise.imp_of_mem ?_ hg.2.2
    intro a b ha hb hab
    obtain ⟨ita, hla, hqa, _⟩ := heap_valid_of_good hg a ha
    obtain ⟨itb, hlb, hqb, _⟩ := heap_valid_of_good hg b hb
    obtain ⟨qa, na⟩ := a
    obtain ⟨qb, nb⟩ := b
    rw [entryLe_iff] at hab
    simp only [liveRec, hla, hlb]
    unfold recLe
    dsimp only at hqa hqb ⊢
    rw [hqa, hqb]
    exact hab
  exact List.pairwise_map.mpr hpair

/-- C5 witness: on the reachable state `mTwo` (two items at quantity 5),
the returned sequence is sorted in the quantity-then-name order. -/
theorem c5_witness : (get_low_stock_items mTwo).1.Sorted recLe :=
  c5_low_stock_sorted mTwo reachTwo

/-- C9: in every reachable state, calling `get_low_stock_items` twice in
a row with no mutation in between returns the same sequence both
times. -/
theorem c9_read_idempotent (m : InventoryManager) (hr : Reachable m) :
    (get_low_stock_items (get_low_stock_items m).2).1 =
      (get_low_stock_items m).1 := by
  rw [get_low_stock_items_state (reachable_good hr)]

/-- C9 witness: two consecutive reads on the reachable state `mTwo`
agree. -/
theorem c9_witness :
    (get_low_stock_items (get_low_stock_items mTwo).2).1 =
      (get_low_stock_items mTwo).1 :=
  c9_read_idempotent mTwo reachTwo

/-- C8: for every existing item name, a successful `update_item` changes
only the provided fields: the set (and order) of item names is
unchanged, every other item's record is unchanged, the item's quantity
is unchanged when no quantity is provided, its price is unchanged when
no price is provided, and the threshold is unchanged. -/
theorem c8_update_partial_fields (m : InventoryManager) (n : String)
    (oq op : Option Int) (h : containsName m.items n = true) :
    ∃ m', update_item m n oq op .ok =
        .ok m' true "Item updated successfully" ∧
      m'.items.map Prod.fst = m.items.map Prod.fst ∧
      m'.threshold = m.threshold ∧
      (∀ n2, n2 ≠ n → lookupItem m'.items n2 = lookupItem m.items n2) ∧
      (oq = none →
        (lookupItem m'.items n).map Item.quantity =
          (lookupItem m.items n).map Item.quantity) ∧
      (op = none →
        (lookupItem m'.items n).map Item.price =
          (lookupItem m.items n).map Item.price) := by
  refine ⟨{ items := applyUpdates m.items n oq op,
            low_stock_heap :=
              rebuild_heap (applyUpdates m.items n oq op) m.threshold,
            threshold := m.threshold }, ?_, ?_, rfl, ?_, ?_, ?_⟩
  · unfold update_item
    rw [if_pos h]
  · exact map_fst_applyUpdates _ _ _ _
  · intro n2 hn2
    dsimp only
    unfold applyUpdates
    cases oq <;> cases op <;>
      simp [lookupItem_setQuantity_ne _ hn2, lookupItem_setPrice_ne _ hn2]
  · rintro rfl
    dsimp only
    unfold applyUpdates
    cases op with
    | none => rfl
    | some pr =>
      rw [lookupItem_setPrice_self]
      cases lookupItem m.items n <;> rfl
  · rintro rfl
    dsimp only
    unfold applyUpdates
    cases oq with
    | none => rfl
    | some q =>
      rw [lookupItem_setQuantity_self]
      cases lookupItem m.items n <;> rfl

/-- C8 witness: updating only the quantity of `bolt` on `mBolt` keeps
its price and the name set. -/
theorem c8_witness :
    containsName mBolt.items "bolt" = true ∧
    ∃ m', update_item mBolt "bolt" (some 7) none .ok =
        .ok m' true "Item updated successfully" ∧
      m'.items.map Prod.fst = mBolt.items.map Prod.fst ∧
      m'.threshold = mBolt.threshold ∧
      (∀ n2, n2 ≠ "bolt" →
        lookupItem m'.items n2 = lookupItem mBolt.items n2) ∧
      ((some 7 : Option Int) = none →
        (lookupItem m'.items "bolt").map Item.quantity =
          (lookupItem mBolt.items "bolt").map Item.quantity) ∧
      ((none : Option Int) = none →
        (lookupItem m'.items "bolt").map Item.price =
          (lookupItem mBolt.items "bolt").map Item.price) :=
  ⟨by decide, c8_update_partial_fields mBolt "bolt" (some 7) none (by decide)⟩
